import Mathlib

/-!
Verification of the music-analysis core of this repository against its
natural-language specification.

The development shallowly embeds the Python sources:

* `src/music_analysis/cache/sound_cache.py`           — `SoundCache`
* `src/music_analysis/input_detection/chord_detector.py` — rolling buffer and
  chord debouncing (`ChordDetector.process_block`)
* `src/musical_processing/rhythm_detector.py`         — rolling buffer
  (`push_audio`) and tempo estimation (`_tempo_from_autocorr`)
* `src/music_analysis/song_structure/song_structure_analyzer.py` —
  `_bin_entries`, `_boundaries`, `_label_sections`

Python floats are embedded as exact rationals (`ℚ`), fallible operations
(NumPy broadcast errors, guarded early returns) as `Option`, and the
wall clock (`time.time()`) as an explicit `now : ℚ` argument.
-/

/-- Schema of one cache record, from `sound_cache.py` (docstring, lines 12-16):
`{chord: str, frequency: float, bpm: float, timestamp: float}`. -/
structure CacheEntry where
  chord : String
  frequency : ℚ
  bpm : ℚ
  timestamp : ℚ
deriving DecidableEq

instance : Inhabited CacheEntry := ⟨⟨"none", 0, 0, 0⟩⟩

/-- State of a `SoundCache` (`sound_cache.py`, lines 19-21): the deque `data`
together with the configured retention window.  The wall clock is passed
explicitly to each operation. -/
structure SoundCache where
  data : List CacheEntry
  window_seconds : ℚ
deriving DecidableEq

namespace SoundCache

/-- `SoundCache._prune` (`sound_cache.py`, lines 23-26): pop entries from the
front of the deque while their timestamp is older than `now - window_seconds`. -/
def prune (c : SoundCache) (now : ℚ) : SoundCache :=
  { c with data := c.data.dropWhile (fun e => e.timestamp < now - c.window_seconds) }

/-- `SoundCache.add` (`sound_cache.py`, lines 28-39): timestamp the entry with
`now`, append it, then prune. -/
def add (c : SoundCache) (now : ℚ) (chord : String) (frequency bpm : ℚ) : SoundCache :=
  prune { c with data := c.data ++ [⟨chord, frequency, bpm, now⟩] } now

/-- `SoundCache.chord_count` (`sound_cache.py`, lines 45-52): prune, then count
entries whose chord equals the argument.  The pruned cache is returned as the
post-state of the operation. -/
def chord_count (c : SoundCache) (now : ℚ) (chord : String) : ℕ × SoundCache :=
  let c' := prune c now
  (c'.data.countP (fun e => e.chord = chord), c')

/-- `SoundCache.max_frequency` (`sound_cache.py`, lines 54-66): prune, then
return the entry of maximal frequency (Python's `max` keeps the first of equal
maxima, hence the strict comparison), or `none` on an empty cache. -/
def max_frequency (c : SoundCache) (now : ℚ) : Option CacheEntry × SoundCache :=
  let c' := prune c now
  (match c'.data with
   | [] => none
   | e :: es => some (es.foldl (fun best x => if best.frequency < x.frequency then x else best) e),
   c')

/-- `SoundCache.top_freqencies` (`sound_cache.py`, lines 68-75; the misspelling
is the source's): prune, sort descending by frequency (Python's `sorted` is
stable; `List.insertionSort` with this relation places earlier entries first
among equal frequencies as well), take the first `n`. -/
def top_freqencies (c : SoundCache) (now : ℚ) (n : ℕ) : List CacheEntry × SoundCache :=
  let c' := prune c now
  ((List.insertionSort (fun a b => b.frequency ≤ a.frequency) c'.data).take n, c')

/-- `SoundCache.since` (`sound_cache.py`, lines 77-89): prune; if
`seconds >= window_seconds` return `None`, otherwise the retained entries with
timestamp at least `now - seconds`. -/
def since (c : SoundCache) (now : ℚ) (seconds : ℚ) : Option (List CacheEntry) × SoundCache :=
  let c' := prune c now
  (if c.window_seconds ≤ seconds then none
   else some (c'.data.filter (fun e => now - seconds ≤ e.timestamp)),
   c')

/-- `SoundCache.last_n` (`sound_cache.py`, lines 91-98): prune, then return the
Python slice `list(data)[-n:]`.  A negative start index `-n` (for `n > 0`)
slices from `max(len - n, 0)`; for `n = 0` Python's `-0 == 0` makes the slice
`data[0:]`, i.e. the whole list. -/
def last_n (c : SoundCache) (now : ℚ) (n : ℕ) : List CacheEntry × SoundCache :=
  let c' := prune c now
  (c'.data.drop (if n = 0 then 0 else c'.data.length - n), c')

end SoundCache

/-- Rolling-buffer update shared by `ChordDetector.process_block`
(`chord_detector.py`, lines 48-56) and `RhythmDetector.push_audio`
(`rhythm_detector.py`, lines 38-45):

* `n >= L` (buffer length): `audio_buf[:] = x[-L:]`;
* `n < L`: `audio_buf[:-n] = audio_buf[n:]` then `audio_buf[-n:] = x`.

NumPy slice assignment raises a broadcast `ValueError` when the target slice
and the value have different lengths; a failed push is modelled as `none`.
Python's `x[-L:]` starts at `max(len(x) - L, 0)` except when `L = 0`, where
`-0 == 0` makes it `x[0:]` (the whole input).  In particular, for an empty
input `x` with a non-empty buffer, the target `audio_buf[:-0]` is the empty
slice while the value `audio_buf[0:]` is the whole buffer, so the assignment
raises. -/
def push_block (buf x : List ℚ) : Option (List ℚ) :=
  let L := buf.length
  let n := x.length
  if L ≤ n then
    let tail := x.drop (if L = 0 then 0 else n - L)
    if tail.length = L then some tail else none
  else if n = 0 then none
  else some (buf.drop n ++ x)

/-- Debounce state of `ChordDetector` (`chord_detector.py`, lines 36-39):
`last_reported`, `last_candidate` (both initially `None`) and
`candidate_count`. -/
structure DetectorState where
  lastReported : Option String
  lastCandidate : Option String
  candidateCount : ℕ
deriving DecidableEq

instance : Inhabited DetectorState := ⟨⟨none, none, 0⟩⟩

/-- One recognition tick of `ChordDetector.process_block`
(`chord_detector.py`, lines 62-74), i.e. the body that runs when the
rate-limit `update_count % every_n_updates == 0` admits a recognition.
The recognized chord (the value of `_recognize_chord`, an opaque
signal-processing result) is passed in as `chord`; the function returns the
updated debounce state and the emitted label, `none` when nothing is
reported. -/
def recognitionTick (smoothing : ℕ) (s : DetectorState) (chord : String) :
    DetectorState × Option String :=
  let s1 :=
    if some chord = s.lastCandidate then
      { s with candidateCount := s.candidateCount + 1 }
    else
      { s with lastCandidate := some chord, candidateCount := 1 }
  if smoothing ≤ s1.candidateCount ∧ some chord ≠ s.lastReported then
    ({ s1 with lastReported := some chord }, some chord)
  else (s1, none)

/-- Run a sequence of recognition ticks, collecting the emitted labels in
order. -/
def runTicks (smoothing : ℕ) (s : DetectorState) :
    List String → DetectorState × List String
  | [] => (s, [])
  | c :: cs =>
    let t := recognitionTick smoothing s c
    let r := runTicks smoothing t.1 cs
    (r.1, (match t.2 with | some x => [x] | none => []) ++ r.2)

/-- Non-negative-lag autocorrelation of `x`, i.e.
`np.correlate(x, x, mode="full")[len(x)-1:]` at lag `k`
(`rhythm_detector.py`, line 65): `ac[k] = sum over i of x[i] * x[i+k]`. -/
def autocorr (x : List ℚ) (k : ℕ) : ℕ → ℚ
  | 0 => 0
  | m + 1 => autocorr x k m + x.getD m 0 * x.getD (m + k) 0

/-- `ac[k]` over the whole list: `autocorrAt x k = sum of x[i] * x[i+k]`
for `i` ranging over positions with `i + k < len x`. -/
def autocorrAt (x : List ℚ) (k : ℕ) : ℚ :=
  autocorr x k (x.length - k)

/-- First index of the maximum, as `np.argmax`: strictly greater values
replace the current best (`rhythm_detector.py`, line 83). `bi`/`bv` are the
best index and value so far, `i` the index of the head of the remaining
list. -/
def argmaxFrom (i bi : ℕ) (bv : ℚ) : List ℚ → ℕ
  | [] => bi
  | v :: rest => if bv < v then argmaxFrom (i + 1) i v rest else argmaxFrom (i + 1) bi bv rest

/-- `np.argmax` on a list (first index of the maximal value; `0` on `[]`,
which the source never hits because the segment is non-empty). -/
def argmax_idx : List ℚ → ℕ
  | [] => 0
  | v :: rest => argmaxFrom 1 0 v rest

/-- `RhythmDetector._tempo_from_autocorr` (`rhythm_detector.py`, lines 58-87).
Guards, in source order: envelope shorter than 4 frames or all-zero;
non-positive zero-lag autocorrelation after removing the mean; empty or
inverted lag range.  Otherwise the BPM for the best lag in range. -/
def tempo_from_autocorr (sr hop_length bpm_min bpm_max : ℚ) (env : List ℚ) : Option ℚ :=
  if env.length < 4 ∨ ∀ e ∈ env, e = 0 then none
  else
    let m := env.sum / (env.length : ℚ)
    let x := env.map (fun v => v - m)
    if autocorrAt x 0 ≤ 0 then none
    else
      let fps := sr / hop_length
      let lag_min : ℤ := max ⌊60 / bpm_max * fps⌋ 1
      let lag_max : ℤ := min ⌈60 / bpm_min * fps⌉ ((x.length : ℤ) - 1)
      if lag_max ≤ lag_min then none
      else
        let segment := (List.range (lag_max - lag_min + 1).toNat).map
          (fun j => autocorrAt x (lag_min.toNat + j))
        let best_lag : ℤ := lag_min + argmax_idx segment
        some (60 * fps / (best_lag : ℚ))

/-- The reference configuration of `RhythmDetector.__init__`
(`rhythm_detector.py`, lines 9-21): `sr=44100`, `hop_length=512`,
`bpm_min=60`, `bpm_max=200`. -/
def tempo_default (env : List ℚ) : Option ℚ :=
  tempo_from_autocorr 44100 512 60 200 env

/-- Loop of `SongStructureAnalyzer._bin_entries`
(`song_structure_analyzer.py`, lines 53-60), processing the remaining
entries with the accumulated closed bins `bins`, the open bin `cur` and its
grid start `cur_start`.  An entry with `timestamp < cur_start + bs` joins the
open bin; otherwise the open bin is closed and a new one starts at the grid
point `start + floor((timestamp - start) / bs) * bs`. -/
def binGo (start bs : ℚ) :
    List CacheEntry → List (List CacheEntry) → List CacheEntry → ℚ →
      List (List CacheEntry) × List CacheEntry
  | [], bins, cur, _ => (bins, cur)
  | e :: rest, bins, cur, cur_start =>
    if e.timestamp < cur_start + bs then
      binGo start bs rest bins (cur ++ [e]) cur_start
    else
      binGo start bs rest (bins ++ [cur]) [e]
        (start + (⌊(e.timestamp - start) / bs⌋ : ℚ) * bs)

/-- `SongStructureAnalyzer._bin_entries` (`song_structure_analyzer.py`,
lines 45-64).  On `[]` the Python raises `IndexError` at `entries[0]`; its
only caller guards with `if not entries: return []`, so the `[]` branch here
mirrors that overall behaviour and every theorem below assumes a non-empty
input. -/
def bin_entries (bs : ℚ) (entries : List CacheEntry) : List (List CacheEntry) :=
  match entries with
  | [] => []
  | e0 :: _ =>
    let r := binGo e0.timestamp bs entries [] [] e0.timestamp
    if r.2 ≠ [] then r.1 ++ [r.2] else r.1

/-- Per-bin features as consumed by `_boundaries` and `_label_sections`
(`song_structure_analyzer.py`, lines 86-92).  `chord_hist` is the key set of
the bin's chord `Counter`: downstream, `_boundaries` reads only
`set(counter.keys())` and `_label_sections` only `dominant_chord`, so the
multiplicities of the histogram are never consulted and are not modelled. -/
structure BinFeatures where
  dominant_chord : String
  chord_hist : Finset String
  change_rate : ℚ
  bpm_mean : ℚ
  bpm_var : ℚ

instance : Inhabited BinFeatures := ⟨⟨"none", ∅, 0, 0, 0⟩⟩

/-- Jaccard distance over chord key sets (`song_structure_analyzer.py`,
lines 96-100): `0` when both sets are empty, else
`1 - |a ∩ b| / |a ∪ b|`. -/
def jaccard (a b : Finset String) : ℚ :=
  if a = ∅ ∧ b = ∅ then 0
  else 1 - ((a ∩ b).card : ℚ) / ((a ∪ b).card : ℚ)

/-- Weighted distance between two consecutive bins
(`song_structure_analyzer.py`, lines 104-107). -/
def bin_distance (chord_weight bpm_weight rate_weight : ℚ) (f g : BinFeatures) : ℚ :=
  chord_weight * jaccard f.chord_hist g.chord_hist +
    bpm_weight * (|f.bpm_mean - g.bpm_mean| / 200) +
    rate_weight * |f.change_rate - g.change_rate|

/-- The `diffs` list of `_boundaries` (`song_structure_analyzer.py`,
lines 102-107): `diffs[0] = 0`, and `diffs[i]` for `i >= 1` is the weighted
distance between bins `i-1` and `i`. -/
def diffs (chord_weight bpm_weight rate_weight : ℚ) (features : List BinFeatures) : List ℚ :=
  0 :: (List.range (features.length - 1)).map
    (fun j => bin_distance chord_weight bpm_weight rate_weight
      (features.getD j default) (features.getD (j + 1) default))

/-- `mean = sum(diffs) / len(diffs)` (`song_structure_analyzer.py`,
line 110). -/
def diffs_mean (chord_weight bpm_weight rate_weight : ℚ) (features : List BinFeatures) : ℚ :=
  (diffs chord_weight bpm_weight rate_weight features).sum /
    ((diffs chord_weight bpm_weight rate_weight features).length : ℚ)

/-- The population variance of the diffs, `sum((x - mean)**2) / len(diffs)` —
the radicand of `std` in `song_structure_analyzer.py`, line 111. -/
def diffs_variance (chord_weight bpm_weight rate_weight : ℚ) (features : List BinFeatures) : ℚ :=
  ((diffs chord_weight bpm_weight rate_weight features).map
    (fun x => (x - diffs_mean chord_weight bpm_weight rate_weight features) ^ 2)).sum /
    ((diffs chord_weight bpm_weight rate_weight features).length : ℚ)

/-- `SongStructureAnalyzer._boundaries` (`song_structure_analyzer.py`,
lines 94-120).  The Python threshold test is
`d >= thresh` with `thresh = mean + math.sqrt(variance)`; over `ℚ` this is
embedded by the algebraically equivalent decidable test
`mean <= d and variance <= (d - mean)^2` (the square root of the
non-negative variance is non-negative; see `rat_threshold_iff_real_sqrt`
below for the proved equivalence with the real-valued threshold).
`sorted(set(boundaries))` is embedded as `insertionSort` of `dedup`. -/
def boundaries (chord_weight bpm_weight rate_weight : ℚ) (features : List BinFeatures) :
    List ℕ :=
  let ds := diffs chord_weight bpm_weight rate_weight features
  let mean := diffs_mean chord_weight bpm_weight rate_weight features
  let variance := diffs_variance chord_weight bpm_weight rate_weight features
  let raw := 0 :: ((List.range ds.length).filter
      (fun i => decide (i ≠ 0 ∧ mean ≤ ds.getD i 0 ∧ variance ≤ (ds.getD i 0 - mean) ^ 2)))
    ++ [features.length]
  List.insertionSort (· ≤ ·) raw.dedup

/-- The collapsing loop of the segment fingerprint
(`song_structure_analyzer.py`, lines 134-141): emit `x` when it differs from
the previous raw element and is not the `"none"` sentinel; `last` is updated
to the raw element on every step (also for skipped ones), exactly as in the
source. -/
def collapseAux (last : Option String) : List String → List String
  | [] => []
  | x :: rest =>
    if some x ≠ last ∧ x ≠ "none" then x :: collapseAux (some x) rest
    else collapseAux (some x) rest

/-- Fingerprint of a segment (`collapse` in `_label_sections`), starting with
`last = None`. -/
def collapse (seq : List String) : List String := collapseAux none seq

/-- Selection loop for the chorus fingerprint (`song_structure_analyzer.py`,
lines 144-151): `counts.most_common()` lists the distinct fingerprints by
descending count, ties in first-occurrence order (Python `Counter` ordering),
and the loop breaks at the first entry with count `>= 2` and length `>= 3`.
That first entry is exactly the qualifying fingerprint of maximal count whose
first occurrence is earliest among equal counts; this fold computes it by
scanning `fps` itself in order, replacing the best candidate only on a
strictly greater count (a later duplicate of the best has an equal count and
never replaces it). -/
def chorusPick (fps : List (List String)) :
    List (List String) → Option (List String) → Option (List String)
  | [], best => best
  | f :: rest, best =>
    if 2 ≤ fps.count f ∧ 3 ≤ f.length then
      match best with
      | none => chorusPick fps rest (some f)
      | some b =>
        if fps.count b < fps.count f then chorusPick fps rest (some f)
        else chorusPick fps rest (some b)
    else chorusPick fps rest best

/-- The chorus fingerprint chosen by `_label_sections`, or `none`. -/
def chorus_fp (fps : List (List String)) : Option (List String) :=
  chorusPick fps fps none

/-- Labeling passes of `SongStructureAnalyzer._label_sections`
(`song_structure_analyzer.py`, lines 143-163), with a segment represented by
its dominant-chord sequence (`dom_seq`); the `start`/`end` timestamps carried
by the Python segment dicts are never read by the labeling logic and pass
through unchanged, so they are not modelled.  First pass: label `"chorus"`
iff `chorus_fp` is truthy (a non-empty tuple) and the fingerprint equals it,
else `"section"`.  Second pass: each `"section"` at segment index `i` becomes
`"verse"` when `chorus_fp is None or i < 2`, else `"bridge"`. -/
def label_sections (domSeqs : List (List String)) : List String :=
  let fps := domSeqs.map collapse
  let cf := chorus_fp fps
  let labeled := fps.map (fun fp =>
    match cf with
    | some c => if c ≠ [] ∧ fp = c then "chorus" else "section"
    | none => "section")
  labeled.mapIdx (fun i lab =>
    if lab = "section" then (if cf = none ∨ i < 2 then "verse" else "bridge") else lab)

/-- Entries surviving `_prune` are all within the window, provided the stored
data is in non-decreasing timestamp order (the data-model invariant: `add`
stamps entries with the current wall clock). -/
theorem dropWhile_old_all_fresh {l : List CacheEntry} {cutoff : ℚ}
    (h : l.Pairwise (fun a b => a.timestamp ≤ b.timestamp)) :
    ∀ e ∈ l.dropWhile (fun e => e.timestamp < cutoff), cutoff ≤ e.timestamp := by
  induction l with
  | nil => simp
  | cons a t ih =>
    rw [List.pairwise_cons] at h
    rw [List.dropWhile_cons]
    by_cases ha : a.timestamp < cutoff
    · rw [if_pos (by simpa using ha)]
      exact ih h.2
    · rw [if_neg (by simpa using ha)]
      intro e he
      rcases List.mem_cons.mp he with rfl | he
      · exact not_lt.mp ha
      · exact le_trans (not_lt.mp ha) (h.1 e he)

/-- C8: for every cache state, `since(seconds)` returns the distinct
"unsupported" result (`None`) exactly when `seconds >= window_seconds`, and
for `seconds < window_seconds` it returns precisely the retained entries
whose timestamp lies within the last `seconds`. -/
theorem since_unsupported_or_exact (c : SoundCache) (now seconds : ℚ) :
    (c.window_seconds ≤ seconds → (c.since now seconds).1 = none) ∧
    (seconds < c.window_seconds →
      ∃ l, (c.since now seconds).1 = some l ∧
        ∀ e, e ∈ l ↔ e ∈ (c.prune now).data ∧ now - seconds ≤ e.timestamp) := by
  constructor
  · intro h
    simp [SoundCache.since, h]
  · intro h
    refine ⟨(c.prune now).data.filter (fun e => now - seconds ≤ e.timestamp), ?_, ?_⟩
    · simp [SoundCache.since, not_le.mpr h]
    · intro e
      simp [List.mem_filter]

/-- Witness for C8 at a concrete cache (window 10, one entry at time 5,
queried at time 6 with `seconds = 12` and `seconds = 3`). -/
theorem since_unsupported_or_exact_witness :
    (SoundCache.since ⟨[⟨"C", 440, 100, 5⟩], 10⟩ 6 12).1 = none ∧
    ∃ l, (SoundCache.since ⟨[⟨"C", 440, 100, 5⟩], 10⟩ 6 3).1 = some l ∧
      ∀ e, e ∈ l ↔
        e ∈ (SoundCache.prune ⟨[⟨"C", 440, 100, 5⟩], 10⟩ 6).data ∧
          (6 : ℚ) - 3 ≤ e.timestamp :=
  ⟨(since_unsupported_or_exact ⟨[⟨"C", 440, 100, 5⟩], 10⟩ 6 12).1
      (by with_unfolding_all decide),
   (since_unsupported_or_exact ⟨[⟨"C", 440, 100, 5⟩], 10⟩ 6 3).2
      (by with_unfolding_all decide)⟩

/-- C10: `last_n 0` returns every retained entry (the whole pruned cache in
stored order), not an empty list; `last_n n` for `n > 0` returns the suffix
of the last `min n size` retained entries; and the result is in chronological
order (oldest first) whenever the stored data is. -/
theorem last_n_zero_is_all (c : SoundCache) (now : ℚ) (n : ℕ) :
    (c.last_n now 0).1 = (c.prune now).data ∧
    (0 < n →
      (c.last_n now n).1 = (c.prune now).data.drop ((c.prune now).data.length - n) ∧
      (c.last_n now n).1.length = min n (c.prune now).data.length ∧
      (c.prune now).data.take ((c.prune now).data.length - n) ++ (c.last_n now n).1 =
        (c.prune now).data) ∧
    (c.data.Pairwise (fun a b => a.timestamp ≤ b.timestamp) →
      (c.last_n now n).1.Pairwise (fun a b => a.timestamp ≤ b.timestamp)) := by
  refine ⟨by simp [SoundCache.last_n], ?_, ?_⟩
  · intro hn
    have h0 : n ≠ 0 := Nat.pos_iff_ne_zero.mp hn
    refine ⟨by simp [SoundCache.last_n, h0], ?_, ?_⟩
    · simp only [SoundCache.last_n, h0, if_false]
      rw [List.length_drop]
      omega
    · simp only [SoundCache.last_n, h0, if_false]
      exact List.take_append_drop _ _
  · intro hs
    have hdw : ((c.prune now).data).Pairwise (fun a b => a.timestamp ≤ b.timestamp) :=
      hs.sublist (List.dropWhile_sublist _)
    exact hdw.sublist (List.drop_sublist _ _)

/-- Witness for C10 at a concrete cache (window 10, entries at times 1 and 5,
queried at time 6, with `n = 1`). -/
theorem last_n_zero_is_all_witness :
    (SoundCache.last_n ⟨[⟨"C", 440, 100, 1⟩, ⟨"G", 330, 95, 5⟩], 10⟩ 6 0).1 =
      (SoundCache.prune ⟨[⟨"C", 440, 100, 1⟩, ⟨"G", 330, 95, 5⟩], 10⟩ 6).data ∧
    (SoundCache.last_n ⟨[⟨"C", 440, 100, 1⟩, ⟨"G", 330, 95, 5⟩], 10⟩ 6 1).1 =
      (SoundCache.prune ⟨[⟨"C", 440, 100, 1⟩, ⟨"G", 330, 95, 5⟩], 10⟩ 6).data.drop
        ((SoundCache.prune ⟨[⟨"C", 440, 100, 1⟩, ⟨"G", 330, 95, 5⟩], 10⟩ 6).data.length - 1) :=
  ⟨(last_n_zero_is_all ⟨[⟨"C", 440, 100, 1⟩, ⟨"G", 330, 95, 5⟩], 10⟩ 6 1).1,
   ((last_n_zero_is_all ⟨[⟨"C", 440, 100, 1⟩, ⟨"G", 330, 95, 5⟩], 10⟩ 6 1).2.1
      (by decide)).1⟩

/-- C9: after `add` and after every query operation (`chord_count`,
`max_frequency`, `top_freqencies`, `since`, `last_n`) the cache retains no
entry older than `now - window_seconds`.  The hypotheses are the data-model
invariants: entries are stored in non-decreasing timestamp order and no
stored timestamp exceeds the current wall clock. -/
theorem no_stale_entry_after_any_op (c : SoundCache) (now : ℚ)
    (chord : String) (frequency bpm seconds : ℚ) (n : ℕ)
    (hsorted : c.data.Pairwise (fun a b => a.timestamp ≤ b.timestamp))
    (hclock : ∀ e ∈ c.data, e.timestamp ≤ now) :
    (∀ e ∈ (c.add now chord frequency bpm).data, now - c.window_seconds ≤ e.timestamp) ∧
    (∀ e ∈ (c.chord_count now chord).2.data, now - c.window_seconds ≤ e.timestamp) ∧
    (∀ e ∈ (c.max_frequency now).2.data, now - c.window_seconds ≤ e.timestamp) ∧
    (∀ e ∈ (c.top_freqencies now n).2.data, now - c.window_seconds ≤ e.timestamp) ∧
    (∀ e ∈ (c.since now seconds).2.data, now - c.window_seconds ≤ e.timestamp) ∧
    (∀ e ∈ (c.last_n now n).2.data, now - c.window_seconds ≤ e.timestamp) := by
  have happ : (c.data ++ [(⟨chord, frequency, bpm, now⟩ : CacheEntry)]).Pairwise
      (fun a b => a.timestamp ≤ b.timestamp) := by
    rw [List.pairwise_append]
    refine ⟨hsorted, List.pairwise_singleton _ _, ?_⟩
    intro a ha b hb
    rw [List.mem_singleton] at hb
    subst hb
    exact hclock a ha
  exact ⟨dropWhile_old_all_fresh happ, dropWhile_old_all_fresh hsorted,
    dropWhile_old_all_fresh hsorted, dropWhile_old_all_fresh hsorted,
    dropWhile_old_all_fresh hsorted, dropWhile_old_all_fresh hsorted⟩

/-- Witness for C9 at a concrete cache (window 10, sorted entries at times 1
and 5, operations performed at time 12: the entry at time 1 is stale). -/
theorem no_stale_entry_after_any_op_witness :
    (∀ e ∈ (SoundCache.add ⟨[⟨"C", 440, 100, 1⟩, ⟨"G", 330, 95, 5⟩], 10⟩ 12 "Am" 220 98).data,
      (12 : ℚ) - 10 ≤ e.timestamp) ∧
    (∀ e ∈ (SoundCache.last_n ⟨[⟨"C", 440, 100, 1⟩, ⟨"G", 330, 95, 5⟩], 10⟩ 12 2).2.data,
      (12 : ℚ) - 10 ≤ e.timestamp) :=
  ⟨(no_stale_entry_after_any_op ⟨[⟨"C", 440, 100, 1⟩, ⟨"G", 330, 95, 5⟩], 10⟩ 12 "Am" 220 98 3 2
      (by with_unfolding_all decide) (by with_unfolding_all decide)).1,
   (no_stale_entry_after_any_op ⟨[⟨"C", 440, 100, 1⟩, ⟨"G", 330, 95, 5⟩], 10⟩ 12 "Am" 220 98 3 2
      (by with_unfolding_all decide) (by with_unfolding_all decide)).2.2.2.2.2⟩

/-- C4 counterexample: pushing an empty input into a non-empty buffer is not a
no-op — the NumPy slice assignment `audio_buf[:-0] = audio_buf[0:]` raises a
broadcast error (length-3 value into an empty slice), modelled as `none`. -/
theorem push_block_empty_input_errors :
    push_block [1, 2, 3] [] = none ∧ push_block [1, 2, 3] [] ≠ some [1, 2, 3] := by
  exact ⟨rfl, by simp [push_block]⟩

/-- C4 (amended): for a non-empty buffer, an incoming block at least as long
as the buffer makes the buffer the tail slice of the input; a shorter
non-empty block shifts the contents left and writes the block at the tail;
an empty block raises a broadcast error (`none`) instead of being a no-op;
any successful push preserves the buffer length. -/
theorem push_block_spec (buf x : List ℚ) :
    (0 < buf.length → buf.length ≤ x.length →
      push_block buf x = some (x.drop (x.length - buf.length))) ∧
    (0 < x.length → x.length < buf.length →
      push_block buf x = some (buf.drop x.length ++ x)) ∧
    (x = [] → 0 < buf.length → push_block buf x = none) ∧
    (∀ r, push_block buf x = some r → r.length = buf.length) := by
  have h1 : 0 < buf.length → buf.length ≤ x.length →
      push_block buf x = some (x.drop (x.length - buf.length)) := by
    intro hbuf hle
    have hL : buf.length ≠ 0 := Nat.pos_iff_ne_zero.mp hbuf
    have hlen : (x.drop (x.length - buf.length)).length = buf.length := by
      rw [List.length_drop]
      omega
    simp [push_block, hle, hL, hlen]
  have h2 : 0 < x.length → x.length < buf.length →
      push_block buf x = some (buf.drop x.length ++ x) := by
    intro hx hlt
    have hnle : ¬ buf.length ≤ x.length := not_le.mpr hlt
    have hn : x.length ≠ 0 := Nat.pos_iff_ne_zero.mp hx
    simp [push_block, hnle, hn]
  have h3 : x = [] → 0 < buf.length → push_block buf x = none := by
    intro hx hbuf
    subst hx
    have hL : buf.length ≠ 0 := Nat.pos_iff_ne_zero.mp hbuf
    simp [push_block, hL]
  refine ⟨h1, h2, h3, ?_⟩
  intro r hr
  rcases Nat.eq_zero_or_pos buf.length with hL0 | hLpos
  · have hpb : push_block buf x = if x.length = 0 then some x else none := by
      simp [push_block, hL0]
    rw [hpb] at hr
    by_cases hx0 : x.length = 0
    · rw [if_pos hx0] at hr
      cases hr
      omega
    · rw [if_neg hx0] at hr
      exact absurd hr (by simp)
  · by_cases hle : buf.length ≤ x.length
    · rw [h1 hLpos hle] at hr
      cases hr
      rw [List.length_drop]
      omega
    · push_neg at hle
      rcases Nat.eq_zero_or_pos x.length with hx0 | hxpos
      · rw [h3 (List.length_eq_zero.mp hx0) hLpos] at hr
        exact absurd hr (by simp)
      · rw [h2 hxpos hle] at hr
        cases hr
        rw [List.length_append, List.length_drop]
        omega

/-- Witness for the amended C4 at concrete inputs: buffer `[1,2,3]` with a
long input `[4,5,6,7]`, a short input `[9]`, and the empty input. -/
theorem push_block_spec_witness :
    push_block [1, 2, 3] [4, 5, 6, 7] = some ([4, 5, 6, 7].drop (4 - 3)) ∧
    push_block [1, 2, 3] [9] = some ([1, 2, 3].drop 1 ++ [9]) ∧
    push_block [1, 2, 3] [] = none :=
  ⟨(push_block_spec [1, 2, 3] [4, 5, 6, 7]).1 (by decide) (by decide),
   (push_block_spec [1, 2, 3] [9]).2.1 (by decide) (by decide),
   (push_block_spec [1, 2, 3] []).2.2.1 rfl (by decide)⟩

/-- Once a label has been reported and is still the candidate, further ticks
of the same label emit nothing (the count keeps growing but the label equals
the last report). -/
theorem runTicks_silent (S : ℕ) (c : String) :
    ∀ (k : ℕ) (s : DetectorState), s.lastCandidate = some c →
      s.lastReported = some c → (runTicks S s (List.replicate k c)).2 = [] := by
  intro k
  induction k with
  | zero => intro s _ _; rfl
  | succ k ih =>
    intro s hc hr
    have ht2 : (recognitionTick S s c).2 = none := by
      simp [recognitionTick, hc, hr]
    have htc : (recognitionTick S s c).1.lastCandidate = some c := by
      simp [recognitionTick, hc, hr]
    have htr : (recognitionTick S s c).1.lastReported = some c := by
      simp [recognitionTick, hc, hr]
    simp only [List.replicate_succ, runTicks, ht2, List.nil_append]
    exact ih _ htc htr

/-- From a state whose candidate is already `c` with count `j < S` and whose
last report differs from `c`, a run of `r` further `c`-ticks reports `[c]`
precisely when the count reaches the smoothing threshold, i.e. when
`S ≤ j + r`; the report happens once, at the tick where the count first
equals `S`. -/
theorem runTicks_build (S : ℕ) (c : String) :
    ∀ (r j : ℕ) (s : DetectorState), s.lastCandidate = some c →
      s.candidateCount = j → s.lastReported ≠ some c → j < S →
      (runTicks S s (List.replicate r c)).2 = if S ≤ j + r then [c] else [] := by
  intro r
  induction r with
  | zero =>
    intro j s hc hj hr hjS
    rw [if_neg (by omega)]
    rfl
  | succ r ih =>
    intro j s hc hj hr hjS
    have hr' : some c ≠ s.lastReported := Ne.symm hr
    by_cases hS : S ≤ j + 1
    · have ht2 : (recognitionTick S s c).2 = some c := by
        simp [recognitionTick, hc, hj, hr', hS]
      have htc : (recognitionTick S s c).1.lastCandidate = some c := by
        simp [recognitionTick, hc, hj, hr', hS]
      have htr : (recognitionTick S s c).1.lastReported = some c := by
        simp [recognitionTick, hc, hj, hr', hS]
      simp only [List.replicate_succ, runTicks, ht2]
      rw [runTicks_silent S c r _ htc htr, if_pos (by omega)]
      rfl
    · have ht2 : (recognitionTick S s c).2 = none := by
        simp [recognitionTick, hc, hj, hS]
      have htc : (recognitionTick S s c).1.lastCandidate = some c := by
        simp [recognitionTick, hc, hj, hS]
      have htn : (recognitionTick S s c).1.candidateCount = j + 1 := by
        simp [recognitionTick, hc, hj, hS]
      have htr : (recognitionTick S s c).1.lastReported ≠ some c := by
        simp [recognitionTick, hc, hj, hS]
        exact hr
      simp only [List.replicate_succ, runTicks, ht2, List.nil_append]
      rw [ih (j + 1) _ htc htn htr (by omega)]
      have harith : j + 1 + r = j + (r + 1) := by omega
      rw [harith]

/-- C5: on every recognition tick a chord label is emitted iff the updated
candidate count has reached the smoothing threshold and the label differs
from the last reported label; consequently, from a state in which `c` is
neither the current candidate nor the last reported label, a run of `S + k`
consecutive `c`-ticks (`smoothing = S ≥ 1`, any `k ≥ 0`) reports `c` exactly
once — in particular exactly `S` ticks (`k = 0`) report once, and repeats
beyond the `S`-th tick produce no further report. -/
theorem debounce_emits_iff_and_reports_once (S k : ℕ) (c : String) (s : DetectorState)
    (hS : 1 ≤ S) (hcand : s.lastCandidate ≠ some c) (hrep : s.lastReported ≠ some c) :
    (∀ (t : DetectorState) (c' : String),
      (recognitionTick S t c').2 = some c' ↔
        S ≤ (recognitionTick S t c').1.candidateCount ∧ some c' ≠ t.lastReported) ∧
    (runTicks S s (List.replicate (S + k) c)).2 = [c] := by
  constructor
  · intro t c'
    simp only [recognitionTick]
    split_ifs with h1 h2 h2 <;>
      first
        | exact iff_of_true rfl (by simpa using h2)
        | exact iff_of_false (by simp) (by simpa using h2)
  · have hcand' : some c ≠ s.lastCandidate := Ne.symm hcand
    have hrep' : some c ≠ s.lastReported := Ne.symm hrep
    obtain ⟨m, hm⟩ : ∃ m, S + k = m + 1 := ⟨S + k - 1, by omega⟩
    rw [hm, List.replicate_succ]
    by_cases hS1 : S ≤ 1
    · have ht2 : (recognitionTick S s c).2 = some c := by
        simp [recognitionTick, hcand', hrep', hS1]
      have htc : (recognitionTick S s c).1.lastCandidate = some c := by
        simp [recognitionTick, hcand', hrep', hS1]
      have htr : (recognitionTick S s c).1.lastReported = some c := by
        simp [recognitionTick, hcand', hrep', hS1]
      simp only [runTicks, ht2]
      rw [runTicks_silent S c m _ htc htr]
      rfl
    · have ht2 : (recognitionTick S s c).2 = none := by
        simp [recognitionTick, hcand', hS1]
      have htc : (recognitionTick S s c).1.lastCandidate = some c := by
        simp [recognitionTick, hcand', hS1]
      have htn : (recognitionTick S s c).1.candidateCount = 1 := by
        simp [recognitionTick, hcand', hS1]
      have htr : (recognitionTick S s c).1.lastReported ≠ some c := by
        simp [recognitionTick, hcand', hS1]
        exact hrep
      simp only [runTicks, ht2, List.nil_append]
      rw [runTicks_build S c m 1 _ htc htn htr (by omega), if_pos (by omega)]

/-- Witness for C5: `smoothing = 2`, fresh detector state, three consecutive
`"C"` ticks report `"C"` exactly once. -/
theorem debounce_emits_iff_and_reports_once_witness :
    (runTicks 2 ⟨none, none, 0⟩ (List.replicate (2 + 1) "C")).2 = ["C"] :=
  (debounce_emits_iff_and_reports_once 2 1 "C" ⟨none, none, 0⟩
    (by decide) (by decide) (by decide)).2

/-- C7: tempo estimation returns the neutral "no estimate" result (`None`)
exactly when the onset envelope is too short (fewer than 4 frames) or
all-zero, or the zero-lag autocorrelation of the mean-removed envelope is
non-positive, or the BPM-derived lag range is empty or inverted; in every
other case it returns a BPM value.  The function is total — no input makes
it fail. -/
theorem tempo_none_iff (sr hop_length bpm_min bpm_max : ℚ) (env : List ℚ) :
    (tempo_from_autocorr sr hop_length bpm_min bpm_max env = none ↔
      env.length < 4 ∨ (∀ e ∈ env, e = 0) ∨
      autocorrAt (env.map (fun v => v - env.sum / (env.length : ℚ))) 0 ≤ 0 ∨
      min ⌈60 / bpm_min * (sr / hop_length)⌉ ((env.length : ℤ) - 1) ≤
        max ⌊60 / bpm_max * (sr / hop_length)⌋ 1) ∧
    (¬(env.length < 4 ∨ (∀ e ∈ env, e = 0) ∨
        autocorrAt (env.map (fun v => v - env.sum / (env.length : ℚ))) 0 ≤ 0 ∨
        min ⌈60 / bpm_min * (sr / hop_length)⌉ ((env.length : ℤ) - 1) ≤
          max ⌊60 / bpm_max * (sr / hop_length)⌋ 1) →
      ∃ bpm, tempo_from_autocorr sr hop_length bpm_min bpm_max env = some bpm) := by
  simp only [tempo_from_autocorr, List.length_map]
  by_cases h1 : env.length < 4 ∨ ∀ e ∈ env, e = 0
  · rw [if_pos h1]
    exact ⟨iff_of_true rfl (by tauto), by tauto⟩
  · rw [if_neg h1]
    by_cases h2 : autocorrAt (env.map (fun v => v - env.sum / (env.length : ℚ))) 0 ≤ 0
    · rw [if_pos h2]
      exact ⟨iff_of_true rfl (by tauto), by tauto⟩
    · rw [if_neg h2]
      by_cases h3 : min ⌈60 / bpm_min * (sr / hop_length)⌉ ((env.length : ℤ) - 1) ≤
          max ⌊60 / bpm_max * (sr / hop_length)⌋ 1
      · rw [if_pos h3]
        exact ⟨iff_of_true rfl (by tauto), by tauto⟩
      · rw [if_neg h3]
        refine ⟨iff_of_false (by simp) (by tauto), ?_⟩
        intro _
        exact ⟨_, rfl⟩

set_option maxRecDepth 100000 in
/-- Witness for C7: with the detector's reference configuration and a
non-degenerate 30-frame alternating envelope, an estimate is produced. -/
theorem tempo_none_iff_witness :
    ∃ bpm, tempo_from_autocorr 44100 512 60 200
      [0, 1, 0, 1, 0, 1, 0, 1, 0, 1, 0, 1, 0, 1, 0, 1, 0, 1, 0, 1,
       0, 1, 0, 1, 0, 1, 0, 1, 0, 1] = some bpm :=
  (tempo_none_iff 44100 512 60 200
      [0, 1, 0, 1, 0, 1, 0, 1, 0, 1, 0, 1, 0, 1, 0, 1, 0, 1, 0, 1,
       0, 1, 0, 1, 0, 1, 0, 1, 0, 1]).2
    (by with_unfolding_all decide)

/-- Invariant of the `_bin_entries` loop: starting from a grid-aligned open
bin, processing sorted entries that all lie at or after the open bin's grid
start yields closed bins that are non-empty and each contained in one grid
interval, a non-empty grid-contained open bin, and a concatenation that
reassembles exactly the already-seen entries. -/
theorem binGo_spec (start bs : ℚ) (hbs : 0 < bs) :
    ∀ (l : List CacheEntry) (bins : List (List CacheEntry)) (cur : List CacheEntry) (k : ℕ),
      l.Pairwise (fun a b => a.timestamp ≤ b.timestamp) →
      (∀ e ∈ l, start + (k : ℚ) * bs ≤ e.timestamp) →
      cur ≠ [] →
      (∀ e ∈ cur, start + (k : ℚ) * bs ≤ e.timestamp ∧
        e.timestamp < start + (k : ℚ) * bs + bs) →
      (∀ b ∈ bins, b ≠ [] ∧ ∃ j : ℕ, ∀ e ∈ b,
        start + (j : ℚ) * bs ≤ e.timestamp ∧ e.timestamp < start + (j : ℚ) * bs + bs) →
      (∀ b ∈ (binGo start bs l bins cur (start + (k : ℚ) * bs)).1, b ≠ [] ∧
          ∃ j : ℕ, ∀ e ∈ b, start + (j : ℚ) * bs ≤ e.timestamp ∧
            e.timestamp < start + (j : ℚ) * bs + bs) ∧
      (binGo start bs l bins cur (start + (k : ℚ) * bs)).2 ≠ [] ∧
      (∃ j : ℕ, ∀ e ∈ (binGo start bs l bins cur (start + (k : ℚ) * bs)).2,
        start + (j : ℚ) * bs ≤ e.timestamp ∧ e.timestamp < start + (j : ℚ) * bs + bs) ∧
      (binGo start bs l bins cur (start + (k : ℚ) * bs)).1.flatten ++
          (binGo start bs l bins cur (start + (k : ℚ) * bs)).2 =
        bins.flatten ++ cur ++ l := by
  intro l
  induction l with
  | nil =>
    intro bins cur k _ _ hcur hcurI hbins
    simp only [binGo]
    exact ⟨hbins, hcur, ⟨k, hcurI⟩, by simp⟩
  | cons e rest ih =>
    intro bins cur k hsort hge hcur hcurI hbins
    rw [List.pairwise_cons] at hsort
    by_cases he : e.timestamp < start + (k : ℚ) * bs + bs
    · simp only [binGo, if_pos he]
      have hcurI' : ∀ x ∈ cur ++ [e], start + (k : ℚ) * bs ≤ x.timestamp ∧
          x.timestamp < start + (k : ℚ) * bs + bs := by
        intro x hx
        rcases List.mem_append.mp hx with hx | hx
        · exact hcurI x hx
        · rw [List.mem_singleton] at hx
          subst hx
          exact ⟨hge x (List.mem_cons_self _ _), he⟩
      have hge' : ∀ x ∈ rest, start + (k : ℚ) * bs ≤ x.timestamp :=
        fun x hx => hge x (List.mem_cons_of_mem _ hx)
      have hrec := ih bins (cur ++ [e]) k hsort.2 hge' (by simp) hcurI' hbins
      refine ⟨hrec.1, hrec.2.1, hrec.2.2.1, ?_⟩
      rw [hrec.2.2.2]
      simp
    · simp only [binGo, if_neg he]
      have hts : start ≤ e.timestamp := by
        have h0 : (0 : ℚ) ≤ (k : ℚ) * bs := mul_nonneg (by positivity) hbs.le
        have := hge e (List.mem_cons_self _ _)
        linarith
      have hjnn : 0 ≤ ⌊(e.timestamp - start) / bs⌋ :=
        Int.floor_nonneg.mpr (div_nonneg (by linarith) hbs.le)
      have h1 : ((⌊(e.timestamp - start) / bs⌋ : ℚ)) * bs ≤ e.timestamp - start := by
        have := Int.floor_le ((e.timestamp - start) / bs)
        rwa [← le_div_iff₀ hbs]
      have h2 : e.timestamp - start < ((⌊(e.timestamp - start) / bs⌋ : ℚ) + 1) * bs := by
        have := Int.lt_floor_add_one ((e.timestamp - start) / bs)
        rwa [← div_lt_iff₀ hbs]
      have hcast : ((⌊(e.timestamp - start) / bs⌋.toNat : ℕ) : ℚ) =
          ((⌊(e.timestamp - start) / bs⌋ : ℤ) : ℚ) := by
        exact_mod_cast congrArg (fun z : ℤ => (z : ℚ)) (Int.toNat_of_nonneg hjnn)
      have harg : start + ((⌊(e.timestamp - start) / bs⌋ : ℤ) : ℚ) * bs =
          start + ((⌊(e.timestamp - start) / bs⌋.toNat : ℕ) : ℚ) * bs := by
        rw [hcast]
      rw [harg]
      have hlow : start + ((⌊(e.timestamp - start) / bs⌋.toNat : ℕ) : ℚ) * bs ≤ e.timestamp := by
        rw [hcast]
        linarith
      have hhigh : e.timestamp <
          start + ((⌊(e.timestamp - start) / bs⌋.toNat : ℕ) : ℚ) * bs + bs := by
        rw [hcast]
        nlinarith [h2]
      have hge' : ∀ x ∈ rest,
          start + ((⌊(e.timestamp - start) / bs⌋.toNat : ℕ) : ℚ) * bs ≤ x.timestamp := by
        intro x hx
        exact le_trans hlow (hsort.1 x hx)
      have hcurI' : ∀ x ∈ [e],
          start + ((⌊(e.timestamp - start) / bs⌋.toNat : ℕ) : ℚ) * bs ≤ x.timestamp ∧
          x.timestamp < start + ((⌊(e.timestamp - start) / bs⌋.toNat : ℕ) : ℚ) * bs + bs := by
        intro x hx
        rw [List.mem_singleton] at hx
        subst hx
        exact ⟨hlow, hhigh⟩
      have hbins' : ∀ b ∈ bins ++ [cur], b ≠ [] ∧ ∃ j : ℕ, ∀ x ∈ b,
          start + (j : ℚ) * bs ≤ x.timestamp ∧ x.timestamp < start + (j : ℚ) * bs + bs := by
        intro b hb
        rcases List.mem_append.mp hb with hb | hb
        · exact hbins b hb
        · rw [List.mem_singleton] at hb
          subst hb
          exact ⟨hcur, k, hcurI⟩
      have hrec := ih (bins ++ [cur]) [e] ⌊(e.timestamp - start) / bs⌋.toNat hsort.2 hge'
        (by simp) hcurI' hbins'
      refine ⟨hrec.1, hrec.2.1, hrec.2.2.1, ?_⟩
      rw [hrec.2.2.2]
      simp

/-- C6: for a non-empty entry list with non-decreasing timestamps and a
positive bin width, `_bin_entries` produces non-empty bins whose
concatenation is exactly the input (every entry in exactly one bin, in
order — no gaps, no overlaps), each bin contained in one fixed-size interval
`[start + k*bin_seconds, start + (k+1)*bin_seconds)` of the grid anchored at
the first entry's timestamp. -/
theorem bin_entries_partition (bs : ℚ) (e0 : CacheEntry) (rest : List CacheEntry)
    (hbs : 0 < bs)
    (hsorted : (e0 :: rest).Pairwise (fun a b => a.timestamp ≤ b.timestamp)) :
    (bin_entries bs (e0 :: rest)).flatten = e0 :: rest ∧
    ∀ b ∈ bin_entries bs (e0 :: rest), b ≠ [] ∧
      ∃ k : ℕ, ∀ e ∈ b,
        e0.timestamp + (k : ℚ) * bs ≤ e.timestamp ∧
        e.timestamp < e0.timestamp + (k : ℚ) * bs + bs := by
  rw [List.pairwise_cons] at hsorted
  have hstep : binGo e0.timestamp bs (e0 :: rest) [] [] e0.timestamp =
      binGo e0.timestamp bs rest [] [e0] (e0.timestamp + ((0 : ℕ) : ℚ) * bs) := by
    simp only [binGo, if_pos (by linarith : e0.timestamp < e0.timestamp + bs)]
    norm_num
  have hrec := binGo_spec e0.timestamp bs hbs rest [] [e0] 0 hsorted.2
    (by
      intro x hx
      have := hsorted.1 x hx
      push_cast
      linarith)
    (by simp)
    (by
      intro x hx
      rw [List.mem_singleton] at hx
      subst hx
      constructor
      · push_cast
        linarith
      · push_cast
        linarith)
    (by simp)
  have hne := hrec.2.1
  have hbe : bin_entries bs (e0 :: rest) =
      (binGo e0.timestamp bs rest [] [e0] (e0.timestamp + ((0 : ℕ) : ℚ) * bs)).1 ++
        [(binGo e0.timestamp bs rest [] [e0] (e0.timestamp + ((0 : ℕ) : ℚ) * bs)).2] := by
    simp only [bin_entries, hstep]
    rw [if_pos hne]
  constructor
  · rw [hbe, List.flatten_append]
    rw [show ([(binGo e0.timestamp bs rest [] [e0] (e0.timestamp + ((0 : ℕ) : ℚ) * bs)).2]).flatten
        = (binGo e0.timestamp bs rest [] [e0] (e0.timestamp + ((0 : ℕ) : ℚ) * bs)).2 by simp]
    rw [hrec.2.2.2]
    simp
  · intro b hb
    rw [hbe] at hb
    rcases List.mem_append.mp hb with hb | hb
    · exact hrec.1 b hb
    · rw [List.mem_singleton] at hb
      subst hb
      exact ⟨hrec.2.1, hrec.2.2.1⟩

/-- Witness for C6: bin width 2, entries at times 0, 1 and 5 — the bins
partition the entries as `[[0, 1], [5]]`. -/
theorem bin_entries_partition_witness :
    (bin_entries 2 [⟨"C", 440, 100, 0⟩, ⟨"C", 440, 100, 1⟩, ⟨"G", 330, 95, 5⟩]).flatten =
      [⟨"C", 440, 100, 0⟩, ⟨"C", 440, 100, 1⟩, ⟨"G", 330, 95, 5⟩] :=
  (bin_entries_partition 2 ⟨"C", 440, 100, 0⟩ [⟨"C", 440, 100, 1⟩, ⟨"G", 330, 95, 5⟩]
    (by decide) (by with_unfolding_all decide)).1

/-- The Python threshold test `d >= mean + math.sqrt(variance)` coincides,
for non-negative variance, with the decidable rational test used in
`boundaries`. -/
theorem rat_threshold_iff_real_sqrt (m v d : ℚ) (hv : 0 ≤ v) :
    (m ≤ d ∧ v ≤ (d - m) ^ 2) ↔ ((m : ℝ) + Real.sqrt (v : ℝ) ≤ (d : ℝ)) := by
  constructor
  · rintro ⟨h1, h2⟩
    have h2' : ((v : ℝ)) ≤ ((d : ℝ) - (m : ℝ)) ^ 2 := by exact_mod_cast h2
    have h1' : (m : ℝ) ≤ (d : ℝ) := by exact_mod_cast h1
    have hs : Real.sqrt (v : ℝ) ≤ (d : ℝ) - (m : ℝ) := by
      calc Real.sqrt (v : ℝ) ≤ Real.sqrt (((d : ℝ) - (m : ℝ)) ^ 2) := Real.sqrt_le_sqrt h2'
        _ = (d : ℝ) - (m : ℝ) := Real.sqrt_sq (by linarith)
    linarith
  · intro h
    have hs0 : 0 ≤ Real.sqrt (v : ℝ) := Real.sqrt_nonneg _
    have h1 : (m : ℝ) ≤ (d : ℝ) := by linarith
    have hdm : Real.sqrt (v : ℝ) ≤ (d : ℝ) - (m : ℝ) := by linarith
    have hvv : Real.sqrt (v : ℝ) ^ 2 = (v : ℝ) :=
      Real.sq_sqrt (by exact_mod_cast hv)
    have h2 : (v : ℝ) ≤ ((d : ℝ) - (m : ℝ)) ^ 2 := by nlinarith [hdm, hs0, hvv]
    exact ⟨by exact_mod_cast h1, by exact_mod_cast h2⟩

/-- In a `≤`-sorted list, a member below every member is the head. -/
theorem sorted_mem_head_eq {l : List ℕ} {a : ℕ} (hs : l.Sorted (· ≤ ·)) (ha : a ∈ l)
    (hmin : ∀ x ∈ l, a ≤ x) : l.head? = some a := by
  cases l with
  | nil => cases ha
  | cons b t =>
    rw [List.sorted_cons] at hs
    have hab : a ≤ b := hmin b (List.mem_cons_self _ _)
    have hba : b ≤ a := by
      rcases List.mem_cons.mp ha with h | h
      · rw [h]
      · exact hs.1 a h
    rw [le_antisymm hab hba]
    rfl

/-- In a `≤`-sorted list, a member above every member is the last element. -/
theorem sorted_mem_getLast_eq {l : List ℕ} {a : ℕ} (hs : l.Sorted (· ≤ ·)) (ha : a ∈ l)
    (hmax : ∀ x ∈ l, x ≤ a) : l.getLast? = some a := by
  induction l with
  | nil => cases ha
  | cons b t ih =>
    cases t with
    | nil =>
      rcases List.mem_singleton.mp ha with h
      rw [h]
      rfl
    | cons c t' =>
      rw [List.getLast?_cons_cons]
      rw [List.sorted_cons] at hs
      have hmem : a ∈ c :: t' := by
        rcases List.mem_cons.mp ha with hab | h
        · have hac : a ≤ c := by
            rw [hab]
            exact hs.1 c (List.mem_cons_self _ _)
          have hca : c ≤ a := hmax c (List.mem_cons_of_mem _ (List.mem_cons_self _ _))
          rw [le_antisymm hac hca]
          exact List.mem_cons_self _ _
        · exact h
      exact ih hs.2 hmem (fun x hx => hmax x (List.mem_cons_of_mem _ hx))

/-- C1: the boundary list of `_boundaries` always starts with `0` and ends
with `bin_count`; an index `i` is a boundary iff `i = 0`, `i = bin_count`,
or `0 < i < len(diffs)` and the distance `diffs[i]` is at least the
threshold `mean + sqrt(population variance)`; the list is sorted; and the
computation is deterministic — equal feature sequences (under equal weights)
give equal boundary lists. -/
theorem boundaries_spec (chord_weight bpm_weight rate_weight : ℚ)
    (features : List BinFeatures) :
    (boundaries chord_weight bpm_weight rate_weight features).head? = some 0 ∧
    (boundaries chord_weight bpm_weight rate_weight features).getLast? =
      some features.length ∧
    (∀ i : ℕ, i ∈ boundaries chord_weight bpm_weight rate_weight features ↔
      i = 0 ∨ i = features.length ∨
      (0 < i ∧ i < (diffs chord_weight bpm_weight rate_weight features).length ∧
        ((diffs_mean chord_weight bpm_weight rate_weight features : ℝ) +
            Real.sqrt ((diffs_variance chord_weight bpm_weight rate_weight features : ℝ)) ≤
          (((diffs chord_weight bpm_weight rate_weight features).getD i 0 : ℚ) : ℝ)))) ∧
    (boundaries chord_weight bpm_weight rate_weight features).Sorted (· ≤ ·) ∧
    (∀ features', features = features' →
      boundaries chord_weight bpm_weight rate_weight features =
        boundaries chord_weight bpm_weight rate_weight features') := by
  have hv : 0 ≤ diffs_variance chord_weight bpm_weight rate_weight features := by
    unfold diffs_variance
    apply div_nonneg
    · apply List.sum_nonneg
      intro x hx
      rcases List.mem_map.mp hx with ⟨y, _, rfl⟩
      positivity
    · positivity
  have hmemQ : ∀ i : ℕ, i ∈ boundaries chord_weight bpm_weight rate_weight features ↔
      i = 0 ∨ i = features.length ∨
      (i ≠ 0 ∧ i < (diffs chord_weight bpm_weight rate_weight features).length ∧
        (diffs_mean chord_weight bpm_weight rate_weight features ≤
            (diffs chord_weight bpm_weight rate_weight features).getD i 0 ∧
          diffs_variance chord_weight bpm_weight rate_weight features ≤
            ((diffs chord_weight bpm_weight rate_weight features).getD i 0 -
              diffs_mean chord_weight bpm_weight rate_weight features) ^ 2)) := by
    intro i
    simp only [boundaries]
    rw [(List.perm_insertionSort (· ≤ ·) _).mem_iff, List.mem_dedup]
    simp only [List.mem_cons, List.mem_append, List.mem_singleton, List.mem_filter,
      List.mem_range, decide_eq_true_eq]
    tauto
  have hmem : ∀ i : ℕ, i ∈ boundaries chord_weight bpm_weight rate_weight features ↔
      i = 0 ∨ i = features.length ∨
      (0 < i ∧ i < (diffs chord_weight bpm_weight rate_weight features).length ∧
        ((diffs_mean chord_weight bpm_weight rate_weight features : ℝ) +
            Real.sqrt ((diffs_variance chord_weight bpm_weight rate_weight features : ℝ)) ≤
          (((diffs chord_weight bpm_weight rate_weight features).getD i 0 : ℚ) : ℝ))) := by
    intro i
    rw [hmemQ i]
    constructor
    · rintro (h | h | ⟨h0, hlt, hq⟩)
      · exact Or.inl h
      · exact Or.inr (Or.inl h)
      · exact Or.inr (Or.inr ⟨Nat.pos_of_ne_zero h0, hlt,
          (rat_threshold_iff_real_sqrt _ _ _ hv).mp hq⟩)
    · rintro (h | h | ⟨h0, hlt, hr⟩)
      · exact Or.inl h
      · exact Or.inr (Or.inl h)
      · exact Or.inr (Or.inr ⟨Nat.pos_iff_ne_zero.mp h0, hlt,
          (rat_threshold_iff_real_sqrt _ _ _ hv).mpr hr⟩)
  have hsorted : (boundaries chord_weight bpm_weight rate_weight features).Sorted (· ≤ ·) := by
    simp only [boundaries]
    exact List.sorted_insertionSort _ _
  have hlen : (diffs chord_weight bpm_weight rate_weight features).length =
      features.length - 1 + 1 := by
    simp [diffs]
  refine ⟨?_, ?_, hmem, hsorted, ?_⟩
  · exact sorted_mem_head_eq hsorted ((hmem 0).mpr (Or.inl rfl)) (fun x _ => Nat.zero_le x)
  · apply sorted_mem_getLast_eq hsorted ((hmem features.length).mpr (Or.inr (Or.inl rfl)))
    intro x hx
    rcases (hmem x).mp hx with h | h | ⟨h0, hlt, _⟩
    · omega
    · omega
    · rw [hlen] at hlt
      omega
  · intro features' hf
    rw [hf]

/-- Witness for C1 at a concrete two-bin feature sequence and the default
weights 1.0 / 0.3 / 0.5 (determinism instantiated with a literally equal
sequence). -/
theorem boundaries_spec_witness :
    boundaries 1 (3 / 10) (1 / 2)
        [⟨"C", {"C"}, 0, 120, 0⟩, ⟨"G", {"G"}, 0, 120, 0⟩] =
      boundaries 1 (3 / 10) (1 / 2)
        [⟨"C", {"C"}, 0, 120, 0⟩, ⟨"G", {"G"}, 0, 120, 0⟩] ∧
    (boundaries 1 (3 / 10) (1 / 2)
        [⟨"C", {"C"}, 0, 120, 0⟩, ⟨"G", {"G"}, 0, 120, 0⟩]).head? = some 0 :=
  ⟨(boundaries_spec 1 (3 / 10) (1 / 2)
      [⟨"C", {"C"}, 0, 120, 0⟩, ⟨"G", {"G"}, 0, 120, 0⟩]).2.2.2.2 _ rfl,
   (boundaries_spec 1 (3 / 10) (1 / 2)
      [⟨"C", {"C"}, 0, 120, 0⟩, ⟨"G", {"G"}, 0, 120, 0⟩]).1⟩

/-- Filtering the sentinel out of `destutter'` (applied to raw neighbours)
matches the collapsing loop: the loop's `last` is the previous raw element,
and for the relation `(· ≠ ·)` skipping equal raw neighbours coincides with
comparing against the previously kept element. -/
theorem destutter_filter_eq_collapseAux :
    ∀ (l : List String) (a : String),
      (List.destutter' (· ≠ ·) a l).filter (fun x => decide (x ≠ "none")) =
        (if a ≠ "none" then [a] else []) ++ collapseAux (some a) l := by
  intro l
  induction l with
  | nil =>
    intro a
    simp only [List.destutter', collapseAux, List.append_nil]
    by_cases ha : a = "none"
    · simp [ha]
    · simp [ha]
  | cons b t ih =>
    intro a
    by_cases hab : a ≠ b
    · have hba : (some b ≠ some a) = True := by
        simp
        exact fun h => hab h.symm
      simp only [List.destutter', if_pos hab, List.filter_cons, collapseAux, ih b, hba]
      by_cases hbn : b = "none"
      · by_cases han : a = "none"
        · simp [hbn, han]
        · simp [hbn, han]
      · by_cases han : a = "none"
        · simp [hbn, han]
        · simp [hbn, han]
    · have hba : b = a := (not_ne_iff.mp hab).symm
      rw [List.destutter'_cons_neg _ hab, ih a]
      subst hba
      simp only [collapseAux]
      simp

/-- The segment fingerprint equals the dominant-chord sequence with
consecutive duplicates removed and then the `"none"` sentinel removed. -/
theorem collapse_eq_destutter_filter (seq : List String) :
    collapse seq =
      (List.destutter (· ≠ ·) seq).filter (fun x => decide (x ≠ "none")) := by
  cases seq with
  | nil => rfl
  | cons x t =>
    rw [List.destutter_cons', destutter_filter_eq_collapseAux t x]
    simp only [collapse, collapseAux]
    by_cases hx : x = "none"
    · simp [hx]
    · simp [hx]

/-- Specification of the chorus-selection fold: with a qualifying running
best, the result is a qualifying fingerprint of maximal count among the
scanned ones and the running best; the result is `none` exactly when the
running best is `none` and nothing scanned qualifies. -/
theorem chorusPick_spec (fps : List (List String)) :
    ∀ (l : List (List String)) (best : Option (List String)),
      (∀ b, best = some b → 2 ≤ fps.count b ∧ 3 ≤ b.length) →
      (∀ c, chorusPick fps l best = some c →
        (2 ≤ fps.count c ∧ 3 ≤ c.length) ∧
        (∀ g ∈ l, 2 ≤ fps.count g → 3 ≤ g.length → fps.count g ≤ fps.count c) ∧
        (∀ b, best = some b → fps.count b ≤ fps.count c)) ∧
      (chorusPick fps l best = none →
        best = none ∧ ∀ g ∈ l, ¬(2 ≤ fps.count g ∧ 3 ≤ g.length)) := by
  intro l
  induction l with
  | nil =>
    intro best hbest
    constructor
    · intro c hc
      simp only [chorusPick] at hc
      refine ⟨hbest c hc, by simp, ?_⟩
      intro b hb
      rw [hb] at hc
      cases hc
      exact le_refl _
    · intro hc
      simp only [chorusPick] at hc
      exact ⟨hc, by simp⟩
  | cons f rest ih =>
    intro best hbest
    by_cases hq : 2 ≤ fps.count f ∧ 3 ≤ f.length
    · cases best with
      | none =>
        have hstep : chorusPick fps (f :: rest) none = chorusPick fps rest (some f) := by
          simp [chorusPick, hq]
        have hrec := ih (some f) (fun b hb => by cases hb; exact hq)
        constructor
        · intro c hc
          rw [hstep] at hc
          have h := hrec.1 c hc
          refine ⟨h.1, ?_, fun b hb => by cases hb⟩
          intro g hg hg2 hg3
          rcases List.mem_cons.mp hg with rfl | hg
          · exact h.2.2 g rfl
          · exact h.2.1 g hg hg2 hg3
        · intro hc
          rw [hstep] at hc
          cases (hrec.2 hc).1
      | some b =>
        by_cases hlt : fps.count b < fps.count f
        · have hstep : chorusPick fps (f :: rest) (some b) = chorusPick fps rest (some f) := by
            simp [chorusPick, hq, hlt]
          have hrec := ih (some f) (fun b' hb' => by cases hb'; exact hq)
          constructor
          · intro c hc
            rw [hstep] at hc
            have h := hrec.1 c hc
            refine ⟨h.1, ?_, ?_⟩
            · intro g hg hg2 hg3
              rcases List.mem_cons.mp hg with rfl | hg
              · exact h.2.2 g rfl
              · exact h.2.1 g hg hg2 hg3
            · intro b' hb'
              cases hb'
              exact le_trans hlt.le (h.2.2 f rfl)
          · intro hc
            rw [hstep] at hc
            cases (hrec.2 hc).1
        · have hstep : chorusPick fps (f :: rest) (some b) = chorusPick fps rest (some b) := by
            simp [chorusPick, hq, hlt]
          have hrec := ih (some b) hbest
          constructor
          · intro c hc
            rw [hstep] at hc
            have h := hrec.1 c hc
            refine ⟨h.1, ?_, h.2.2⟩
            intro g hg hg2 hg3
            rcases List.mem_cons.mp hg with rfl | hg
            · exact le_trans (not_lt.mp hlt) (h.2.2 b rfl)
            · exact h.2.1 g hg hg2 hg3
          · intro hc
            rw [hstep] at hc
            cases (hrec.2 hc).1
    · have hstep : chorusPick fps (f :: rest) best = chorusPick fps rest best := by
        simp only [chorusPick, if_neg hq]
      have hrec := ih best hbest
      constructor
      · intro c hc
        rw [hstep] at hc
        have h := hrec.1 c hc
        refine ⟨h.1, ?_, h.2.2⟩
        intro g hg hg2 hg3
        rcases List.mem_cons.mp hg with rfl | hg
        · exact absurd ⟨hg2, hg3⟩ hq
        · exact h.2.1 g hg hg2 hg3
      · intro hc
        rw [hstep] at hc
        have h := hrec.2 hc
        refine ⟨h.1, ?_⟩
        intro g hg
        rcases List.mem_cons.mp hg with rfl | hg
        · exact hq
        · exact h.2 g hg

/-- C2: the fingerprint of a segment is its dominant-chord sequence with
consecutive duplicates and the `"none"` sentinel removed; the chorus
fingerprint, when chosen, occurs in at least 2 segments, has length at least
3, and is of maximal count among such fingerprints (absent exactly when no
fingerprint qualifies); a segment is labeled `"chorus"` iff its fingerprint
equals the chosen chorus fingerprint; and on the concrete example — pattern
A = `[C, G, Am]` in two segments, pattern B = `[F, G]` in one — exactly the
pattern-A segments are labeled `"chorus"`. -/
theorem label_sections_chorus (domSeqs : List (List String)) :
    (∀ seq : List String, collapse seq =
      (List.destutter (· ≠ ·) seq).filter (fun x => decide (x ≠ "none"))) ∧
    (∀ c, chorus_fp (domSeqs.map collapse) = some c →
      (2 ≤ (domSeqs.map collapse).count c ∧ 3 ≤ c.length) ∧
      ∀ g ∈ domSeqs.map collapse, 2 ≤ (domSeqs.map collapse).count g →
        3 ≤ g.length →
        (domSeqs.map collapse).count g ≤ (domSeqs.map collapse).count c) ∧
    (chorus_fp (domSeqs.map collapse) = none →
      ∀ g ∈ domSeqs.map collapse,
        ¬(2 ≤ (domSeqs.map collapse).count g ∧ 3 ≤ g.length)) ∧
    (∀ i : ℕ, (label_sections domSeqs)[i]? = some "chorus" ↔
      ∃ c, chorus_fp (domSeqs.map collapse) = some c ∧
        (domSeqs.map collapse)[i]? = some c) ∧
    label_sections [["C", "G", "Am"], ["F", "G"], ["C", "G", "Am"]] =
      ["chorus", "verse", "chorus"] := by
  have hpick := chorusPick_spec (domSeqs.map collapse) (domSeqs.map collapse) none
    (fun b hb => by cases hb)
  refine ⟨collapse_eq_destutter_filter, ?_, ?_, ?_, by with_unfolding_all decide⟩
  · intro c hc
    have h := hpick.1 c hc
    exact ⟨h.1, h.2.1⟩
  · intro hn
    exact (hpick.2 hn).2
  · intro i
    simp only [label_sections]
    rw [List.getElem?_mapIdx, List.getElem?_map]
    cases hfp : (domSeqs.map collapse)[i]? with
    | none => simp
    | some fp =>
      cases hcf : chorus_fp (domSeqs.map collapse) with
      | none => simp
      | some c =>
        have hgood := hpick.1 c hcf
        have hcne : c ≠ [] := by
          intro h0
          rw [h0] at hgood
          simp at hgood
        by_cases hfpc : fp = c
        · simp [hfpc, hcne]
        · by_cases hi2 : i < 2 <;> simp [hfpc, hcne, hi2]

/-- Witness for C2: on the two-pattern example the chorus label at segment 0
is produced through the fingerprint-equality characterization, with chorus
fingerprint `[C, G, Am]`. -/
theorem label_sections_chorus_witness :
    (label_sections [["C", "G", "Am"], ["F", "G"], ["C", "G", "Am"]])[0]? =
      some "chorus" :=
  ((label_sections_chorus [["C", "G", "Am"], ["F", "G"], ["C", "G", "Am"]]).2.2.2.1 0).mpr
    ⟨["C", "G", "Am"], by with_unfolding_all decide, by with_unfolding_all decide⟩

/-- C3 counterexample: three segments with distinct single-chord
fingerprints yield no chorus fingerprint, and `_label_sections` then labels
every segment `"verse"` — the test `chorus_fp is None or i < 2` is true at
every index when `chorus_fp is None` — not `"verse", "verse", "bridge"` as
the claim predicts for the third segment. -/
theorem label_sections_no_chorus_all_verse_cex :
    label_sections [["C"], ["D"], ["E"]] = ["verse", "verse", "verse"] ∧
    label_sections [["C"], ["D"], ["E"]] ≠ ["verse", "verse", "bridge"] := by
  constructor
  · with_unfolding_all decide
  · with_unfolding_all decide

/-- C3 (amended): when no chorus fingerprint is found, every segment
(`"section"` after the first pass) is labeled `"verse"`; when a chorus
fingerprint is found, a non-chorus segment is labeled `"verse"` exactly when
its global segment index is below 2, and `"bridge"` otherwise (the Python
tests the segment index `i < 2`, not the position among non-chorus
segments). -/
theorem label_sections_fallback (domSeqs : List (List String)) (i : ℕ)
    (hi : i < domSeqs.length) :
    (chorus_fp (domSeqs.map collapse) = none →
      (label_sections domSeqs)[i]? = some "verse") ∧
    (∀ c, chorus_fp (domSeqs.map collapse) = some c →
      (domSeqs.map collapse)[i]? ≠ some c →
      (label_sections domSeqs)[i]? = some (if i < 2 then "verse" else "bridge")) := by
  have hilen : i < (domSeqs.map collapse).length := by simpa using hi
  obtain ⟨fp, hfp⟩ : ∃ fp, (domSeqs.map collapse)[i]? = some fp := by
    cases h : (domSeqs.map collapse)[i]? with
    | none =>
      rw [List.getElem?_eq_none_iff] at h
      omega
    | some fp => exact ⟨fp, rfl⟩
  constructor
  · intro hcf
    simp only [label_sections]
    rw [List.getElem?_mapIdx, List.getElem?_map, hfp, hcf]
    simp
  · intro c hcf hne
    have hfpc : fp ≠ c := by
      intro h
      rw [h] at hfp
      exact hne hfp
    simp only [label_sections]
    rw [List.getElem?_mapIdx, List.getElem?_map, hfp, hcf]
    by_cases hi2 : i < 2 <;> simp [hfpc, hi2]

/-- Witness for the amended C3: on the no-chorus example the third segment
(index 2) is labeled `"verse"`. -/
theorem label_sections_fallback_witness :
    (label_sections [["C"], ["D"], ["E"]])[2]? = some "verse" :=
  (label_sections_fallback [["C"], ["D"], ["E"]] 2 (by decide)).1
    (by with_unfolding_all decide)
